import Mathlib

/-!
Verification of the layered resource-resolution engine, the workflow
state-machine operations, and the CLI text utilities of the
swissarmyhammer repository, against its natural-language specification.

Rust code is shallowly embedded: pure functions become Lean functions,
`&mut self` methods become explicit state passing, u8 arithmetic that can
overflow returns `Option`, and fallible byte slicing returns `Option`
(`none` models a Rust panic).  Components whose source is unavailable
(the `VirtualFileSystem` in `file_loader.rs`, the `PromptLoader`, the
`PromptLibrary`, the diagram parser and the workflow executor) are
modelled from the specification; each such definition says so in its
doc comment.
-/

set_option maxHeartbeats 1000000

/-! ## Resource resolution (`prompt_resolver.rs` and spec §4.1–§4.2) -/

/-- Provenance tiers of `file_loader.rs::FileSource`: `Builtin` is the
embedded tier, then `User`, then `Local` (the spec names them
Embedded/User/Local). -/
inductive FileSource where
  | Builtin
  | User
  | Local
deriving DecidableEq, Repr

/-- A resource held by the virtual file system: name, text content and
the tier that supplied it. -/
structure FileEntry where
  name : String
  content : String
  source : FileSource
deriving DecidableEq, Repr

/-- Modelled from the spec: the VFS `name → Resource` map is an ordered
association list; inserting an entry whose name is already present
replaces that binding (a later tier's entry for a given name replaces an
earlier one), otherwise the entry is appended. -/
def mergeEntry : List FileEntry → FileEntry → List FileEntry
  | [], e => [e]
  | x :: rest, e =>
    if x.name == e.name then e :: rest else x :: mergeEntry rest e

/-- Tag a tier's `(name, content)` pairs with their provenance. -/
def tierEntries (src : FileSource) (xs : List (String × String)) : List FileEntry :=
  xs.map (fun p => ⟨p.1, p.2, src⟩)

/-- Modelled from the spec: `VirtualFileSystem::load_all` walks the
builtin, user and local tiers in that registration order (lowest
precedence first) and merges every discovered file into the name-keyed
map; a nonexisting root contributes an empty tier list (missing roots
are silently skipped). -/
def vfsLoadAll (builtin user localT : List (String × String)) : List FileEntry :=
  (tierEntries .Builtin builtin ++ tierEntries .User user ++
    tierEntries .Local localT).foldl mergeEntry []

/-- First entry of the merged map with the given name. -/
def findEntry (m : List FileEntry) (n : String) : Option FileEntry :=
  m.find? (fun e => e.name == n)

/-- Last entry with the given name in a raw (unmerged) entry list. -/
def findLastEntry : List FileEntry → String → Option FileEntry
  | [], _ => none
  | e :: rest, n =>
    match findLastEntry rest n with
    | some x => some x
    | none => if e.name == n then some e else none

/-- Last binding of a name inside one tier's scan list (the last file
scanned wins within a tier). -/
def lookupLast : List (String × String) → String → Option String
  | [], _ => none
  | p :: rest, n =>
    match lookupLast rest n with
    | some c => some c
    | none => if p.1 == n then some p.2 else none

theorem findEntry_nil (n : String) : findEntry [] n = none := rfl

theorem findEntry_cons (e : FileEntry) (rest : List FileEntry) (n : String) :
    findEntry (e :: rest) n = if e.name = n then some e else findEntry rest n := by
  by_cases h : e.name = n
  · simp [findEntry, List.find?, h]
  · have hb : (e.name == n) = false := beq_eq_false_iff_ne.mpr h
    simp [findEntry, List.find?, hb, h]

theorem findEntry_mergeEntry (m : List FileEntry) (e : FileEntry) (n : String) :
    findEntry (mergeEntry m e) n =
      if e.name = n then some e else findEntry m n := by
  induction m with
  | nil =>
    simp [mergeEntry, findEntry_cons, findEntry_nil]
  | cons x rest ih =>
    by_cases hxe : x.name = e.name
    · simp only [mergeEntry, hxe, beq_self_eq_true, if_true]
      rw [findEntry_cons, findEntry_cons]
      by_cases hen : e.name = n
      · simp [hen]
      · have hxn : ¬ x.name = n := by rw [hxe]; exact hen
        simp [hen, hxn]
    · have hne : (x.name == e.name) = false := beq_eq_false_iff_ne.mpr hxe
      simp only [mergeEntry, hne, Bool.false_eq_true, if_false]
      rw [findEntry_cons, ih, findEntry_cons]
      by_cases hxn : x.name = n
      · have hen : ¬ e.name = n := by
          intro h; exact hxe (hxn.trans h.symm)
        simp [hxn, hen]
      · simp [hxn]

theorem findEntry_foldl_merge (l : List FileEntry) (m : List FileEntry) (n : String) :
    findEntry (l.foldl mergeEntry m) n =
      match findLastEntry l n with
      | some e => some e
      | none => findEntry m n := by
  induction l generalizing m with
  | nil => simp [findLastEntry]
  | cons e rest ih =>
    simp only [List.foldl_cons, findLastEntry]
    rw [ih]
    cases h : findLastEntry rest n with
    | some x => simp
    | none =>
      simp only []
      by_cases hen : e.name = n
      · simp [hen, findEntry_mergeEntry]
      · simp [findEntry_mergeEntry, hen]

theorem findLastEntry_append (a b : List FileEntry) (n : String) :
    findLastEntry (a ++ b) n =
      match findLastEntry b n with
      | some e => some e
      | none => findLastEntry a n := by
  induction a with
  | nil => simp only [List.nil_append, findLastEntry]; cases findLastEntry b n <;> simp
  | cons e rest ih =>
    simp only [List.cons_append, findLastEntry, List.append_eq]
    rw [ih]
    cases findLastEntry b n <;> cases findLastEntry rest n <;> simp

theorem findLastEntry_tier (src : FileSource) (xs : List (String × String)) (n : String) :
    findLastEntry (tierEntries src xs) n =
      (lookupLast xs n).map (fun c => FileEntry.mk n c src) := by
  induction xs with
  | nil => simp [tierEntries, findLastEntry, lookupLast]
  | cons p rest ih =>
    simp only [tierEntries, List.map_cons, findLastEntry, lookupLast] at *
    rw [ih]
    cases lookupLast rest n with
    | some c => simp
    | none =>
      by_cases hp : p.1 = n
      · simp [hp]
      · have : (p.1 == n) = false := beq_eq_false_iff_ne.mpr hp
        simp [this]

/-- The names stored in a merged map. -/
def entryNames (m : List FileEntry) : List String := m.map FileEntry.name

theorem mem_entryNames_mergeEntry (m : List FileEntry) (e : FileEntry) (n : String)
    (h : n ∈ entryNames (mergeEntry m e)) : n = e.name ∨ n ∈ entryNames m := by
  induction m with
  | nil => simpa [mergeEntry, entryNames] using h
  | cons x rest ih =>
    by_cases hx : x.name = e.name
    · simp only [mergeEntry, hx, beq_self_eq_true, if_true, entryNames, List.map_cons,
        List.mem_cons] at h ⊢
      rcases h with h | h
      · exact Or.inl h
      · exact Or.inr (Or.inr h)
    · have hb : (x.name == e.name) = false := beq_eq_false_iff_ne.mpr hx
      simp only [mergeEntry, hb, Bool.false_eq_true, if_false, entryNames, List.map_cons,
        List.mem_cons] at h ⊢
      rcases h with h | h
      · exact Or.inr (Or.inl h)
      · rcases ih h with h1 | h1
        · exact Or.inl h1
        · exact Or.inr (Or.inr h1)

theorem nodup_entryNames_mergeEntry (m : List FileEntry) (e : FileEntry)
    (h : (entryNames m).Nodup) : (entryNames (mergeEntry m e)).Nodup := by
  induction m with
  | nil => simp [mergeEntry, entryNames]
  | cons x rest ih =>
    simp only [entryNames, List.map_cons, List.nodup_cons] at h
    by_cases hx : x.name = e.name
    · simp only [mergeEntry, hx, beq_self_eq_true, if_true, entryNames, List.map_cons,
        List.nodup_cons]
      exact ⟨by rw [← hx]; exact h.1, h.2⟩
    · have hb : (x.name == e.name) = false := beq_eq_false_iff_ne.mpr hx
      simp only [mergeEntry, hb, Bool.false_eq_true, if_false, entryNames, List.map_cons,
        List.nodup_cons]
      refine ⟨fun hmem => ?_, ih h.2⟩
      rcases mem_entryNames_mergeEntry rest e x.name hmem with h1 | h1
      · exact hx h1
      · exact h.1 h1

theorem nodup_entryNames_foldl (l : List FileEntry) (m : List FileEntry)
    (h : (entryNames m).Nodup) : (entryNames (l.foldl mergeEntry m)).Nodup := by
  induction l generalizing m with
  | nil => simpa using h
  | cons e rest ih =>
    simp only [List.foldl_cons]
    exact ih _ (nodup_entryNames_mergeEntry m e h)

theorem nodup_entryNames_vfsLoadAll (b u l : List (String × String)) :
    (entryNames (vfsLoadAll b u l)).Nodup := by
  exact nodup_entryNames_foldl _ [] (by simp [entryNames])

theorem mem_mergeEntry (m : List FileEntry) (e x : FileEntry)
    (h : x ∈ mergeEntry m e) : x = e ∨ x ∈ m := by
  induction m with
  | nil => simpa [mergeEntry] using h
  | cons y rest ih =>
    by_cases hy : y.name = e.name
    · simp only [mergeEntry, hy, beq_self_eq_true, if_true, List.mem_cons] at h
      rcases h with h | h
      · exact Or.inl h
      · exact Or.inr (List.mem_cons_of_mem _ h)
    · have hb : (y.name == e.name) = false := beq_eq_false_iff_ne.mpr hy
      simp only [mergeEntry, hb, Bool.false_eq_true, if_false, List.mem_cons] at h
      rcases h with h | h
      · exact Or.inr (h ▸ List.mem_cons_self _ _)
      · rcases ih h with h1 | h1
        · exact Or.inl h1
        · exact Or.inr (List.mem_cons_of_mem _ h1)

theorem mem_foldl_merge (l : List FileEntry) (m : List FileEntry) (x : FileEntry)
    (h : x ∈ l.foldl mergeEntry m) : x ∈ m ∨ x ∈ l := by
  induction l generalizing m with
  | nil => exact Or.inl (by simpa using h)
  | cons e rest ih =>
    simp only [List.foldl_cons] at h
    rcases ih _ h with h1 | h1
    · rcases mem_mergeEntry m e x h1 with h2 | h2
      · exact Or.inr (h2 ▸ List.mem_cons_self _ _)
      · exact Or.inl h2
    · exact Or.inr (List.mem_cons_of_mem _ h1)

/-! ## The prompt loading loop (`PromptResolver::load_all_prompts`) -/

/-- A parsed prompt.  Modelled from the spec: the kind-specific loader
turns resource text into a domain object carrying a name. -/
structure Prompt where
  name : String
  template : String
deriving DecidableEq, Repr

/-- `HashMap::insert` on the `prompt_sources` map: replace the binding
if the key is present, otherwise add it. -/
def insertSource : List (String × FileSource) → String → FileSource →
    List (String × FileSource)
  | [], k, v => [(k, v)]
  | p :: rest, k, v => if p.1 == k then (k, v) :: rest else p :: insertSource rest k v

/-- Lookup in the `prompt_sources` map. -/
def lookupSource (m : List (String × FileSource)) (k : String) : Option FileSource :=
  (m.find? (fun p => p.1 == k)).map Prod.snd

/-- Modelled from the spec: `PromptLibrary::add` stores the prompt under
its name, a later insert with the same name replacing the earlier one. -/
def libraryAdd : List Prompt → Prompt → List Prompt
  | [], p => [p]
  | q :: rest, p => if q.name == p.name then p :: rest else q :: libraryAdd rest p

/-- The `for file in self.vfs.list()` loop of
`PromptResolver::load_all_prompts` (prompt_resolver.rs lines 44–54):
each file is parsed by the loader; on success its source is recorded in
`prompt_sources` and the prompt added to the library; the first parse
error aborts the loop, leaving the mutations made so far in place
(the Rust `?` operator returns early out of a loop that has already
mutated `self.prompt_sources` and `library`). -/
def processFiles (loader : String → String → Except String Prompt) :
    List FileEntry → List (String × FileSource) → List Prompt →
    List (String × FileSource) × List Prompt × Option String
  | [], sources, lib => (sources, lib, none)
  | f :: rest, sources, lib =>
    match loader f.name f.content with
    | .error e => (sources, lib, some e)
    | .ok p => processFiles loader rest (insertSource sources p.name f.source) (libraryAdd lib p)

/-- `PromptResolver::load_all_prompts`: load the builtin tier, let the
VFS merge all tiers, then process every merged file in order.  The three
tier lists stand for the files each tier contributes (an absent root
contributes the empty list); `sources₀`/`lib₀` are the resolver's
`prompt_sources` map and the caller's library before the call. -/
def load_all_prompts (loader : String → String → Except String Prompt)
    (builtin user localT : List (String × String))
    (sources₀ : List (String × FileSource)) (lib₀ : List Prompt) :
    List (String × FileSource) × List Prompt × Option String :=
  processFiles loader (vfsLoadAll builtin user localT) sources₀ lib₀

theorem lookupSource_insertSource (m : List (String × FileSource)) (k : String)
    (v : FileSource) (n : String) :
    lookupSource (insertSource m k v) n =
      if k = n then some v else lookupSource m n := by
  induction m with
  | nil =>
    by_cases h : k = n
    · simp [insertSource, lookupSource, List.find?, h]
    · have hb : (k == n) = false := beq_eq_false_iff_ne.mpr h
      simp [insertSource, lookupSource, List.find?, hb, h]
  | cons p rest ih =>
    by_cases hp : p.1 = k
    · simp only [insertSource, hp, beq_self_eq_true, if_true]
      by_cases h : k = n
      · simp [lookupSource, List.find?, h]
      · have hb : (k == n) = false := beq_eq_false_iff_ne.mpr h
        have hb2 : (p.1 == n) = false := beq_eq_false_iff_ne.mpr (by rw [hp]; exact h)
        simp [lookupSource, List.find?, hb, hb2, h]
    · have hbp : (p.1 == k) = false := beq_eq_false_iff_ne.mpr hp
      simp only [insertSource, hbp, Bool.false_eq_true, if_false]
      by_cases hn : p.1 = n
      · have hk : ¬ k = n := by intro h; exact hp (by rw [h, hn])
        simp [lookupSource, List.find?, hn, hk]
      · have hb2 : (p.1 == n) = false := beq_eq_false_iff_ne.mpr hn
        simp only [lookupSource, List.find?, hb2]
        simpa [lookupSource] using ih

theorem mem_insertSource (m : List (String × FileSource)) (k : String) (v : FileSource)
    (q : String × FileSource) (h : q ∈ insertSource m k v) : q ∈ m ∨ q = (k, v) := by
  induction m with
  | nil => simpa [insertSource] using h
  | cons p rest ih =>
    by_cases hp : p.1 = k
    · simp only [insertSource, hp, beq_self_eq_true, if_true, List.mem_cons] at h
      rcases h with h | h
      · exact Or.inr h
      · exact Or.inl (List.mem_cons_of_mem _ h)
    · have hb : (p.1 == k) = false := beq_eq_false_iff_ne.mpr hp
      simp only [insertSource, hb, Bool.false_eq_true, if_false, List.mem_cons] at h
      rcases h with h | h
      · exact Or.inl (h ▸ List.mem_cons_self _ _)
      · rcases ih h with h1 | h1
        · exact Or.inl (List.mem_cons_of_mem _ h1)
        · exact Or.inr h1

theorem processFiles_lookup_of_not_mem (loader : String → String → Except String Prompt)
    (hname : ∀ m c p, loader m c = .ok p → p.name = m)
    (files : List FileEntry) (s : List (String × FileSource)) (lib : List Prompt)
    (n : String) (hnm : ∀ f ∈ files, f.name ≠ n) :
    lookupSource (processFiles loader files s lib).1 n = lookupSource s n := by
  induction files generalizing s lib with
  | nil => simp [processFiles]
  | cons g rest ih =>
    cases hg : loader g.name g.content with
    | error e => simp [processFiles, hg]
    | ok p =>
      have hpn : p.name = g.name := hname _ _ _ hg
      have hgn : g.name ≠ n := hnm g (List.mem_cons_self _ _)
      simp only [processFiles, hg]
      rw [ih _ _ (fun f hf => hnm f (List.mem_cons_of_mem _ hf))]
      rw [lookupSource_insertSource]
      simp [hpn, hgn]

theorem processFiles_lookup_mem (loader : String → String → Except String Prompt)
    (hname : ∀ m c p, loader m c = .ok p → p.name = m)
    (files : List FileEntry) (s : List (String × FileSource)) (lib : List Prompt)
    (f : FileEntry) (hnodup : (entryNames files).Nodup) (hf : f ∈ files)
    (hok : (processFiles loader files s lib).2.2 = none) :
    lookupSource (processFiles loader files s lib).1 f.name = some f.source := by
  induction files generalizing s lib with
  | nil => exact absurd hf (List.not_mem_nil f)
  | cons g rest ih =>
    simp only [entryNames, List.map_cons, List.nodup_cons] at hnodup
    cases hg : loader g.name g.content with
    | error e => simp [processFiles, hg] at hok
    | ok p =>
      have hpn : p.name = g.name := hname _ _ _ hg
      simp only [processFiles, hg] at hok ⊢
      rcases List.mem_cons.mp hf with hfg | hfr
      · subst hfg
        have hrest : ∀ x ∈ rest, x.name ≠ f.name := by
          intro x hx hxn
          exact hnodup.1 (hxn ▸ List.mem_map_of_mem FileEntry.name hx)
        rw [processFiles_lookup_of_not_mem loader hname rest _ _ f.name hrest]
        rw [lookupSource_insertSource]
        simp [hpn]
      · exact ih _ _ hnodup.2 hfr hok

theorem processFiles_none_of_all_ok (loader : String → String → Except String Prompt)
    (files : List FileEntry) (s : List (String × FileSource)) (lib : List Prompt)
    (hall : ∀ f ∈ files, ∃ p, loader f.name f.content = .ok p) :
    (processFiles loader files s lib).2.2 = none := by
  induction files generalizing s lib with
  | nil => simp [processFiles]
  | cons g rest ih =>
    obtain ⟨p, hp⟩ := hall g (List.mem_cons_self _ _)
    simp only [processFiles, hp]
    exact ih _ _ (fun f hf => hall f (List.mem_cons_of_mem _ hf))

theorem processFiles_sources_mem (loader : String → String → Except String Prompt)
    (files : List FileEntry) (s : List (String × FileSource)) (lib : List Prompt)
    (q : String × FileSource) (hq : q ∈ (processFiles loader files s lib).1) :
    q ∈ s ∨ ∃ f ∈ files, q.2 = f.source := by
  induction files generalizing s lib with
  | nil => exact Or.inl (by simpa [processFiles] using hq)
  | cons g rest ih =>
    cases hg : loader g.name g.content with
    | error e =>
      simp only [processFiles, hg] at hq
      exact Or.inl hq
    | ok p =>
      simp only [processFiles, hg] at hq
      rcases ih _ _ hq with h1 | h1
      · rcases mem_insertSource _ _ _ _ h1 with h2 | h2
        · exact Or.inl h2
        · exact Or.inr ⟨g, List.mem_cons_self _ _, by rw [h2]⟩
      · obtain ⟨f, hfr, hfs⟩ := h1
        exact Or.inr ⟨f, List.mem_cons_of_mem _ hfr, hfs⟩

theorem findEntry_vfsLoadAll (b u l : List (String × String)) (n : String) :
    findEntry (vfsLoadAll b u l) n =
      match lookupLast l n with
      | some c => some ⟨n, c, .Local⟩
      | none =>
        match lookupLast u n with
        | some c => some ⟨n, c, .User⟩
        | none =>
          match lookupLast b n with
          | some c => some ⟨n, c, .Builtin⟩
          | none => none := by
  unfold vfsLoadAll
  rw [findEntry_foldl_merge, findLastEntry_append, findLastEntry_append,
    findLastEntry_tier, findLastEntry_tier, findLastEntry_tier]
  cases lookupLast l n <;> cases lookupLast u n <;> cases lookupLast b n <;>
    simp [findEntry_nil]

/-- A loader that accepts every resource, naming the prompt after the file. -/
def okLoader : String → String → Except String Prompt :=
  fun m ct => .ok ⟨m, ct⟩

/-- A loader that rejects exactly the content `"bad"` with a parse error. -/
def failLoader : String → String → Except String Prompt :=
  fun m ct => if ct == "bad" then .error "parse" else .ok ⟨m, ct⟩

/-- C1: the resolver applies the precedence order Embedded < User < Local.
If a name is bound at the local tier, the merged set holds exactly the
local content for it and the recorded provenance is `Local`; failing
that, a user-tier binding wins with provenance `User`; failing that, a
builtin binding wins with provenance `Builtin` (= Embedded).  In
particular a name present at all three tiers resolves with provenance
`Local` and the local file's content. -/
theorem load_all_prompts_precedence
    (loader : String → String → Except String Prompt)
    (b u l : List (String × String))
    (s₀ : List (String × FileSource)) (lib₀ : List Prompt)
    (hname : ∀ m c p, loader m c = .ok p → p.name = m)
    (hok : (load_all_prompts loader b u l s₀ lib₀).2.2 = none)
    (n c : String) :
    (lookupLast l n = some c →
      findEntry (vfsLoadAll b u l) n = some ⟨n, c, .Local⟩ ∧
      lookupSource (load_all_prompts loader b u l s₀ lib₀).1 n = some .Local) ∧
    (lookupLast l n = none → lookupLast u n = some c →
      findEntry (vfsLoadAll b u l) n = some ⟨n, c, .User⟩ ∧
      lookupSource (load_all_prompts loader b u l s₀ lib₀).1 n = some .User) ∧
    (lookupLast l n = none → lookupLast u n = none → lookupLast b n = some c →
      findEntry (vfsLoadAll b u l) n = some ⟨n, c, .Builtin⟩ ∧
      lookupSource (load_all_prompts loader b u l s₀ lib₀).1 n = some .Builtin) := by
  simp only [load_all_prompts] at hok ⊢
  have main : ∀ src : FileSource,
      findEntry (vfsLoadAll b u l) n = some ⟨n, c, src⟩ →
      lookupSource (processFiles loader (vfsLoadAll b u l) s₀ lib₀).1 n = some src := by
    intro src he
    have hmem : (⟨n, c, src⟩ : FileEntry) ∈ vfsLoadAll b u l :=
      List.mem_of_find?_eq_some he
    exact processFiles_lookup_mem loader hname (vfsLoadAll b u l) s₀ lib₀ ⟨n, c, src⟩
      (nodup_entryNames_vfsLoadAll b u l) hmem hok
  refine ⟨fun hl => ?_, fun hl hu => ?_, fun hl hu hb => ?_⟩
  · have he : findEntry (vfsLoadAll b u l) n = some ⟨n, c, .Local⟩ := by
      rw [findEntry_vfsLoadAll, hl]
    exact ⟨he, main _ he⟩
  · have he : findEntry (vfsLoadAll b u l) n = some ⟨n, c, .User⟩ := by
      rw [findEntry_vfsLoadAll, hl, hu]
    exact ⟨he, main _ he⟩
  · have he : findEntry (vfsLoadAll b u l) n = some ⟨n, c, .Builtin⟩ := by
      rw [findEntry_vfsLoadAll, hl, hu, hb]
    exact ⟨he, main _ he⟩

/-- Witness for C1 at a concrete three-tier configuration: name `a`
exists at all three tiers and resolves local, `b` exists at builtin and
user and resolves user, `c` only at builtin and resolves builtin. -/
theorem load_all_prompts_precedence_witness :
    (findEntry (vfsLoadAll [("a", "ba"), ("c", "bc")] [("a", "ua"), ("b", "ub")]
        [("a", "la")]) "a" = some ⟨"a", "la", .Local⟩ ∧
      lookupSource (load_all_prompts okLoader [("a", "ba"), ("c", "bc")]
        [("a", "ua"), ("b", "ub")] [("a", "la")] [] []).1 "a" = some .Local) ∧
    (findEntry (vfsLoadAll [("a", "ba"), ("c", "bc")] [("a", "ua"), ("b", "ub")]
        [("a", "la")]) "b" = some ⟨"b", "ub", .User⟩ ∧
      lookupSource (load_all_prompts okLoader [("a", "ba"), ("c", "bc")]
        [("a", "ua"), ("b", "ub")] [("a", "la")] [] []).1 "b" = some .User) ∧
    (findEntry (vfsLoadAll [("a", "ba"), ("c", "bc")] [("a", "ua"), ("b", "ub")]
        [("a", "la")]) "c" = some ⟨"c", "bc", .Builtin⟩ ∧
      lookupSource (load_all_prompts okLoader [("a", "ba"), ("c", "bc")]
        [("a", "ua"), ("b", "ub")] [("a", "la")] [] []).1 "c" = some .Builtin) := by
  have hname : ∀ m c p, okLoader m c = .ok p → p.name = m := by
    intro m c p h
    cases h
    rfl
  have hok : (load_all_prompts okLoader [("a", "ba"), ("c", "bc")]
      [("a", "ua"), ("b", "ub")] [("a", "la")] [] []).2.2 = none := by decide
  refine ⟨?_, ?_, ?_⟩
  · exact (load_all_prompts_precedence okLoader _ _ _ _ _ hname hok "a" "la").1 (by decide)
  · exact (load_all_prompts_precedence okLoader _ _ _ _ _ hname hok "b" "ub").2.1
      (by decide) (by decide)
  · exact (load_all_prompts_precedence okLoader _ _ _ _ _ hname hok "c" "bc").2.2
      (by decide) (by decide) (by decide)

/-- C2 counterexample: loading two builtin resources whose second fails
to parse aborts with the parse error, but the provenance map and the
library already hold the first resource — the claimed post-state "the
target store and the name→provenance map are left unchanged (contain no
entries from the aborted load)" is false for the pre-state of empty
store and map. -/
theorem load_all_prompts_not_atomic :
    load_all_prompts failLoader [("a", "good"), ("z", "bad")] [] [] [] [] =
      ([("a", FileSource.Builtin)], [⟨"a", "good"⟩], some "parse") ∧
    ([("a", FileSource.Builtin)] : List (String × FileSource)) ≠ [] := by
  exact ⟨by decide, by decide⟩

/-- C2 amended: the load is fail-fast but not atomic.  If every file
before `f` parses and `f` fails, processing the whole list returns the
parse error, the files after `f` are never processed, and the store and
provenance map are exactly those produced by the successfully parsed
prefix (entries loaded before the failure remain visible). -/
theorem processFiles_fail_fast (loader : String → String → Except String Prompt)
    (pre : List FileEntry) (f : FileEntry) (post : List FileEntry)
    (s₀ : List (String × FileSource)) (lib₀ : List Prompt) (e : String)
    (hpre : ∀ g ∈ pre, ∃ p, loader g.name g.content = .ok p)
    (hf : loader f.name f.content = .error e) :
    ∃ s₁ lib₁,
      processFiles loader pre s₀ lib₀ = (s₁, lib₁, none) ∧
      processFiles loader (pre ++ f :: post) s₀ lib₀ = (s₁, lib₁, some e) := by
  induction pre generalizing s₀ lib₀ with
  | nil =>
    exact ⟨s₀, lib₀, by simp [processFiles], by simp [processFiles, hf]⟩
  | cons g rest ih =>
    obtain ⟨p, hp⟩ := hpre g (List.mem_cons_self _ _)
    simp only [List.cons_append, processFiles, hp]
    exact ih _ _ (fun g' hg' => hpre g' (List.mem_cons_of_mem _ hg'))

/-- Witness for the amended C2 at the concrete failing load. -/
theorem processFiles_fail_fast_witness :
    ∃ s₁ lib₁,
      processFiles failLoader [⟨"a", "good", .Builtin⟩] [] [] = (s₁, lib₁, none) ∧
      processFiles failLoader ([⟨"a", "good", .Builtin⟩] ++
          ⟨"z", "bad", .Builtin⟩ :: []) [] [] = (s₁, lib₁, some "parse") :=
  processFiles_fail_fast failLoader [⟨"a", "good", .Builtin⟩] ⟨"z", "bad", .Builtin⟩ []
    [] [] "parse"
    (by
      intro g hg
      rw [List.mem_singleton] at hg
      subst hg
      exact ⟨⟨"a", "good"⟩, rfl⟩)
    rfl

/-- C7: when only the builtin (embedded) tier is populated — the user
and local roots do not exist, hence contribute no files — and every
builtin resource parses, the load succeeds and every merged entry and
every recorded provenance is `Builtin` (= Embedded). -/
theorem load_all_prompts_builtin_only
    (loader : String → String → Except String Prompt) (b : List (String × String))
    (hall : ∀ f ∈ vfsLoadAll b [] [], ∃ p, loader f.name f.content = .ok p) :
    (load_all_prompts loader b [] [] [] []).2.2 = none ∧
    (∀ f ∈ vfsLoadAll b [] [], f.source = FileSource.Builtin) ∧
    (∀ q ∈ (load_all_prompts loader b [] [] [] []).1, q.2 = FileSource.Builtin) := by
  have hsrc : ∀ f ∈ vfsLoadAll b [] [], f.source = FileSource.Builtin := by
    intro f hf
    rcases mem_foldl_merge _ _ _ hf with h | h
    · exact absurd h (List.not_mem_nil f)
    · simp only [tierEntries, List.map_nil, List.append_nil] at h
      obtain ⟨p, _, hpf⟩ := List.mem_map.mp h
      rw [← hpf]
  refine ⟨?_, hsrc, ?_⟩
  · simpa [load_all_prompts] using
      processFiles_none_of_all_ok loader (vfsLoadAll b [] []) [] [] hall
  · intro q hq
    simp only [load_all_prompts] at hq
    rcases processFiles_sources_mem loader _ _ _ q hq with h | h
    · exact absurd h (List.not_mem_nil q)
    · obtain ⟨f, hf, hqs⟩ := h
      rw [hqs]
      exact hsrc f hf

/-- Witness for C7 at a concrete builtin-only configuration. -/
theorem load_all_prompts_builtin_only_witness :
    (load_all_prompts okLoader [("x", "cx")] [] [] [] []).2.2 = none ∧
    (∀ f ∈ vfsLoadAll [("x", "cx")] [] [], f.source = FileSource.Builtin) ∧
    (∀ q ∈ (load_all_prompts okLoader [("x", "cx")] [] [] [] []).1,
      q.2 = FileSource.Builtin) :=
  load_all_prompts_builtin_only okLoader [("x", "cx")]
    (fun f _ => ⟨⟨f.name, f.content⟩, rfl⟩)

/-! ## Workflow executor run lifecycle (spec §4.5; executor source not
available, modelled from the spec) -/

/-- Run status (spec §3, WorkflowInstance): `Completed`, `Cancelled` and
`Failed` are terminal. -/
inductive RunStatus where
  | Running
  | Suspended
  | Completed
  | Cancelled
  | Failed (reason : String)
deriving DecidableEq, Repr

/-- One history record of a run (spec §3). -/
structure HistoryEntry where
  state_id : String
  entered_at : Nat
deriving DecidableEq, Repr

/-- A workflow run instance (spec §3, WorkflowInstance). -/
structure WorkflowRun where
  definition_name : String
  current_states : List String
  history : List HistoryEntry
  status : RunStatus
deriving DecidableEq, Repr

/-- Errors of the run-lifecycle operations (spec §7):
`InvalidStateTransition` carries the run status the operation found and
the name of the rejected operation. -/
inductive ExecError where
  | InvalidStateTransition (current : RunStatus) (op : String)
deriving DecidableEq, Repr

/-- Modelled from the spec: `cancel(run)` forces status to `Cancelled`
from any non-terminal status; on an already-terminal run it is accepted
only when the status is already `Cancelled`, otherwise it returns
`InvalidStateTransition` and leaves the run unchanged. -/
def cancel (run : WorkflowRun) : WorkflowRun × Option ExecError :=
  match run.status with
  | .Completed => (run, some (.InvalidStateTransition run.status "cancel"))
  | .Failed _ => (run, some (.InvalidStateTransition run.status "cancel"))
  | .Cancelled => (run, none)
  | _ => ({ run with status := .Cancelled }, none)

/-- Modelled from the spec: `suspend(run)` moves `Running` to
`Suspended` without altering `current_states`; from any other status it
is rejected with `InvalidStateTransition` and the run is unchanged. -/
def suspend (run : WorkflowRun) : WorkflowRun × Option ExecError :=
  match run.status with
  | .Running => ({ run with status := .Suspended }, none)
  | _ => (run, some (.InvalidStateTransition run.status "suspend"))

/-- Modelled from the spec: `resume(run)` moves `Suspended` back to
`Running` without altering `current_states`; from any other status it is
rejected with `InvalidStateTransition` and the run is unchanged. -/
def resume (run : WorkflowRun) : WorkflowRun × Option ExecError :=
  match run.status with
  | .Suspended => ({ run with status := .Running }, none)
  | _ => (run, some (.InvalidStateTransition run.status "resume"))

/-- C4: cancelling a `Completed` run returns `InvalidStateTransition`
and leaves the run — in particular its status — unchanged; cancel on an
already-`Cancelled` run is accepted, and from the non-terminal statuses
it succeeds by forcing the status to `Cancelled`. -/
theorem cancel_completed_rejected (run : WorkflowRun) :
    (run.status = .Completed →
      cancel run = (run, some (.InvalidStateTransition .Completed "cancel")) ∧
      (cancel run).1.status = .Completed) ∧
    (run.status = .Cancelled → cancel run = (run, none)) ∧
    (run.status = .Running ∨ run.status = .Suspended →
      cancel run = ({ run with status := .Cancelled }, none)) := by
  refine ⟨fun h => ?_, fun h => ?_, fun h => ?_⟩
  · simp [cancel, h]
  · simp [cancel, h]
  · rcases h with h | h <;> simp [cancel, h]

/-- Witness for C4 at a concrete completed run. -/
theorem cancel_completed_rejected_witness :
    cancel ⟨"wf", ["done"], [], .Completed⟩ =
      (⟨"wf", ["done"], [], .Completed⟩,
        some (.InvalidStateTransition .Completed "cancel")) ∧
    (cancel ⟨"wf", ["done"], [], .Completed⟩).1.status = .Completed :=
  (cancel_completed_rejected ⟨"wf", ["done"], [], .Completed⟩).1 rfl

/-- C5: `suspend` and `resume` change only the status field, toggling
`Running ⇄ Suspended`: `current_states` and `history` are never touched;
suspending an already-suspended run and resuming an already-running run
are rejected with `InvalidStateTransition`, leaving the run entirely
unchanged. -/
theorem suspend_resume_frame (run : WorkflowRun) :
    (suspend run).1.current_states = run.current_states ∧
    (suspend run).1.history = run.history ∧
    (resume run).1.current_states = run.current_states ∧
    (resume run).1.history = run.history ∧
    (run.status = .Running →
      suspend run = ({ run with status := .Suspended }, none)) ∧
    (run.status = .Suspended →
      suspend run = (run, some (.InvalidStateTransition .Suspended "suspend"))) ∧
    (run.status = .Suspended →
      resume run = ({ run with status := .Running }, none)) ∧
    (run.status = .Running →
      resume run = (run, some (.InvalidStateTransition .Running "resume"))) := by
  cases h : run.status <;>
    simp [suspend, resume, h]

/-- Witness for C5 at concrete running and suspended runs. -/
theorem suspend_resume_frame_witness :
    suspend ⟨"wf", ["s1"], [⟨"s1", 0⟩], .Running⟩ =
      (⟨"wf", ["s1"], [⟨"s1", 0⟩], .Suspended⟩, none) ∧
    suspend ⟨"wf", ["s1"], [], .Suspended⟩ =
      (⟨"wf", ["s1"], [], .Suspended⟩,
        some (.InvalidStateTransition .Suspended "suspend")) ∧
    resume ⟨"wf", ["s1"], [], .Suspended⟩ =
      (⟨"wf", ["s1"], [], .Running⟩, none) ∧
    resume ⟨"wf", ["s1"], [], .Running⟩ =
      (⟨"wf", ["s1"], [], .Running⟩,
        some (.InvalidStateTransition .Running "resume")) := by
  refine ⟨?_, ?_, ?_, ?_⟩
  · exact (suspend_resume_frame ⟨"wf", ["s1"], [⟨"s1", 0⟩], .Running⟩).2.2.2.2.1 rfl
  · exact (suspend_resume_frame ⟨"wf", ["s1"], [], .Suspended⟩).2.2.2.2.2.1 rfl
  · exact (suspend_resume_frame ⟨"wf", ["s1"], [], .Suspended⟩).2.2.2.2.2.2.1 rfl
  · exact (suspend_resume_frame ⟨"wf", ["s1"], [], .Running⟩).2.2.2.2.2.2.2 rfl

/-! ## Diagram parser ambiguity check (spec §4.3 step 5; parser source
not available, modelled from the spec) -/

/-- A parsed transition: source and target state ids, an optional guard
expression and an optional label. -/
structure Transition where
  src : String
  dst : String
  guard : Option String
  label : Option String
deriving DecidableEq, Repr

/-- A parsed diagram before the ambiguity check: the implicitly declared
state ids, the state ids carrying an explicit fork marker, and the
transitions in declaration order. -/
structure Diagram where
  states : List String
  forkStates : List String
  transitions : List Transition
deriving DecidableEq, Repr

/-- Parse-time errors of the diagram parser (spec §7). -/
inductive DiagramError where
  | AmbiguousTransitionError (state : String)
deriving DecidableEq, Repr

/-- Number of unguarded transitions leaving a state. -/
def unguardedOut (ts : List Transition) (s : String) : Nat :=
  (ts.filter (fun t => t.src == s && t.guard.isNone)).length

/-- Modelled from the spec: step 5 of the DiagramParser rejects every
state with two or more unguarded outgoing transitions that has no
explicit fork marker, reporting `AmbiguousTransitionError`; only an
explicit fork marker authorizes several unguarded outgoing edges. -/
def checkAmbiguousTransitions (d : Diagram) : Except DiagramError Diagram :=
  match d.states.find?
      (fun s => !(decide (s ∈ d.forkStates)) && decide (2 ≤ unguardedOut d.transitions s)) with
  | some s => .error (.AmbiguousTransitionError s)
  | none => .ok d

/-- C3: the parser rejects, with `AmbiguousTransitionError`, every
diagram in which some state has at least two unguarded outgoing
transitions and no fork marker; conversely, whenever the check passes,
every state with at least two unguarded outgoing transitions carries an
explicit fork marker. -/
theorem checkAmbiguousTransitions_spec (d : Diagram) :
    (∀ s, s ∈ d.states → s ∉ d.forkStates → 2 ≤ unguardedOut d.transitions s →
      ∃ s', checkAmbiguousTransitions d = .error (.AmbiguousTransitionError s')) ∧
    (∀ r, checkAmbiguousTransitions d = .ok r →
      ∀ s ∈ d.states, 2 ≤ unguardedOut d.transitions s → s ∈ d.forkStates) := by
  constructor
  · intro s hs hnf hcount
    unfold checkAmbiguousTransitions
    cases hfind : d.states.find?
        (fun s => !(decide (s ∈ d.forkStates)) && decide (2 ≤ unguardedOut d.transitions s)) with
    | some s' => exact ⟨s', rfl⟩
    | none =>
      exfalso
      have := List.find?_eq_none.mp hfind s hs
      simp only [Bool.and_eq_true, Bool.not_eq_true', decide_eq_true_eq,
        decide_eq_false_iff_not] at this
      exact this ⟨hnf, hcount⟩
  · intro r hr s hs hcount
    unfold checkAmbiguousTransitions at hr
    cases hfind : d.states.find?
        (fun s => !(decide (s ∈ d.forkStates)) && decide (2 ≤ unguardedOut d.transitions s)) with
    | some s' => rw [hfind] at hr; exact absurd hr (by simp)
    | none =>
      by_contra hnf
      have := List.find?_eq_none.mp hfind s hs
      simp only [Bool.and_eq_true, Bool.not_eq_true', decide_eq_true_eq,
        decide_eq_false_iff_not] at this
      exact this ⟨hnf, hcount⟩

/-- Witness for C3: a concrete diagram where state `A` has two unguarded
outgoing transitions and no fork marker is rejected; its fork-marked
variant passes the check and indeed marks `A` as a fork. -/
theorem checkAmbiguousTransitions_witness :
    (∃ s', checkAmbiguousTransitions
        ⟨["A", "B", "C"], [],
          [⟨"A", "B", none, none⟩, ⟨"A", "C", none, none⟩]⟩ =
      .error (.AmbiguousTransitionError s')) ∧
    (∀ s ∈ (["A", "B", "C"] : List String),
      2 ≤ unguardedOut [⟨"A", "B", none, none⟩, ⟨"A", "C", none, none⟩] s →
      s ∈ (["A"] : List String)) := by
  constructor
  · exact (checkAmbiguousTransitions_spec
      ⟨["A", "B", "C"], [], [⟨"A", "B", none, none⟩, ⟨"A", "C", none, none⟩]⟩).1
      "A" (by decide) (by decide) (by decide)
  · exact (checkAmbiguousTransitions_spec
      ⟨["A", "B", "C"], ["A"], [⟨"A", "B", none, none⟩, ⟨"A", "C", none, none⟩]⟩).2
      ⟨["A", "B", "C"], ["A"], [⟨"A", "B", none, none⟩, ⟨"A", "C", none, none⟩]⟩ rfl

/-! ## Terminal color conversion (`ui/theme.rs::Color::to_ansi_256`) -/

/-- An RGB color; the u8 fields are naturals in `0..=255`. -/
structure Color where
  r : Nat
  g : Nat
  b : Nat
deriving DecidableEq, Repr

/-- u8 addition; `none` models a Rust debug-build overflow panic. -/
def checkedAdd (a b : Nat) : Option Nat :=
  if a + b ≤ 255 then some (a + b) else none

/-- u8 subtraction; `none` models underflow. -/
def checkedSub (a b : Nat) : Option Nat :=
  if b ≤ a then some (a - b) else none

/-- u8 multiplication; `none` models overflow. -/
def checkedMul (a b : Nat) : Option Nat :=
  if a * b ≤ 255 then some (a * b) else none

/-- `Color::to_ansi_256` (theme.rs lines 16–28) with every u8 operation
checked.  Grayscale branch: `r < 8 → 16`, `r > 248 → 231`, otherwise
`232 + (r - 8) / 10`; color branch:
`16 + 36 * (r / 51) + 6 * (g / 51) + b / 51`. -/
def to_ansi_256 (c : Color) : Option Nat :=
  if c.r = c.g ∧ c.g = c.b then
    if c.r < 8 then some 16
    else if 248 < c.r then some 231
    else do
      let d ← checkedSub c.r 8
      checkedAdd 232 (d / 10)
  else do
    let m1 ← checkedMul 36 (c.r / 51)
    let s1 ← checkedAdd 16 m1
    let m2 ← checkedMul 6 (c.g / 51)
    let s2 ← checkedAdd s1 m2
    checkedAdd s2 (c.b / 51)

/-- C8 failing input: for `r = g = b = 248` the grayscale guard
`r > 248` does not fire, so the code computes `232 + (248 - 8) / 10 =
256`, which exceeds the u8 range — `to_ansi_256` overflows (a panic in
a Rust debug build) instead of returning a value.  The sanity checks on
neighbouring inputs show the guard boundary: 247 and 249 are fine. -/
theorem to_ansi_256_overflow_at_248 :
    to_ansi_256 ⟨248, 248, 248⟩ = none ∧
    to_ansi_256 ⟨247, 247, 247⟩ = some 255 ∧
    to_ansi_256 ⟨249, 249, 249⟩ = some 231 := by
  decide

/-! ## Text truncation (`ui/utils.rs::truncate_with_ellipsis`) -/

/-- The UTF-8 byte length of one character (Rust `char::len_utf8`). -/
def rustLenUtf8 (ch : Char) : Nat :=
  if ch.val < 128 then 1 else if ch.val < 2048 then 2
  else if ch.val < 65536 then 3 else 4

/-- The UTF-8 byte length of a string (Rust `str::len`). -/
def utf8Len (s : List Char) : Nat := (s.map rustLenUtf8).sum

/-- Rust byte slicing `&s[..k]`: `some` prefix when `k` bytes end on a
character boundary, `none` (panic) otherwise. -/
def byteSlice : List Char → Nat → Option (List Char)
  | _, 0 => some []
  | [], _ + 1 => none
  | ch :: rest, k + 1 =>
    if rustLenUtf8 ch ≤ k + 1 then
      (byteSlice rest (k + 1 - rustLenUtf8 ch)).map (fun t => ch :: t)
    else none

/-- The three-dot ellipsis appended by the function. -/
def ellipsisChars : List Char := ['.', '.', '.']

/-- `truncate_with_ellipsis` (utils.rs lines 147–155): return the text
unchanged when its byte length fits, plain `"..."` when `max_width ≤ 3`,
otherwise the byte slice `text[..max_width - 3]` followed by `"..."`;
the slice is `none` when it would panic off a character boundary. -/
def truncate_with_ellipsis (text : List Char) (max_width : Nat) : Option (List Char) :=
  if utf8Len text ≤ max_width then some text
  else if max_width ≤ 3 then some ellipsisChars
  else (byteSlice text (max_width - 3)).map (fun p => p ++ ellipsisChars)

/-- C9 counterexample: on the three-character string `"ééé"` (each
character two UTF-8 bytes) with `max_width = 4` the slice
`&text[..1]` does not fall on a character boundary, so the function
panics — it is not total over multi-byte UTF-8 input. -/
theorem truncate_with_ellipsis_panics :
    truncate_with_ellipsis ['é', 'é', 'é'] 4 = none := by decide

theorem utf8Len_ascii (text : List Char) (h : ∀ ch ∈ text, rustLenUtf8 ch = 1) :
    utf8Len text = text.length := by
  induction text with
  | nil => rfl
  | cons ch rest ih =>
    simp only [utf8Len, List.map_cons, List.sum_cons, List.length_cons] at *
    rw [h ch (List.mem_cons_self _ _), ih (fun c hc => h c (List.mem_cons_of_mem _ hc))]
    omega

theorem byteSlice_ascii (text : List Char) (k : Nat)
    (h : ∀ ch ∈ text, rustLenUtf8 ch = 1) (hk : k ≤ text.length) :
    byteSlice text k = some (text.take k) := by
  induction text generalizing k with
  | nil =>
    have hk0 : k = 0 := Nat.le_zero.mp (by simpa using hk)
    subst hk0
    rfl
  | cons ch rest ih =>
    cases k with
    | zero => rfl
    | succ k =>
      have h1 : rustLenUtf8 ch = 1 := h ch (List.mem_cons_self _ _)
      simp only [byteSlice, h1]
      rw [if_pos (by omega), show k + 1 - 1 = k from rfl]
      rw [ih k (fun c hc => h c (List.mem_cons_of_mem _ hc)) (by simp at hk; omega)]
      simp [List.take_succ_cons]

theorem utf8Len_append (a c : List Char) : utf8Len (a ++ c) = utf8Len a + utf8Len c := by
  simp [utf8Len]

/-- C9 amended: `truncate_with_ellipsis` is total on ASCII text (every
character one byte): it returns a string of byte length at most
`max max_width 3`.  On multi-byte UTF-8 text it can panic, as the
counterexample shows. -/
theorem truncate_with_ellipsis_ascii_total (text : List Char) (w : Nat)
    (h : ∀ ch ∈ text, rustLenUtf8 ch = 1) :
    ∃ s, truncate_with_ellipsis text w = some s ∧ utf8Len s ≤ max w 3 := by
  unfold truncate_with_ellipsis
  by_cases h1 : utf8Len text ≤ w
  · exact ⟨text, by rw [if_pos h1], le_trans h1 (le_max_left _ _)⟩
  · rw [if_neg h1]
    by_cases h2 : w ≤ 3
    · refine ⟨ellipsisChars, by rw [if_pos h2], ?_⟩
      have he : utf8Len ellipsisChars = 3 := by decide
      rw [he]
      exact le_max_right _ _
    · rw [if_neg h2]
      have hlen : utf8Len text = text.length := utf8Len_ascii text h
      have hw : w < text.length := by omega
      have hbs : byteSlice text (w - 3) = some (text.take (w - 3)) :=
        byteSlice_ascii text (w - 3) h (by omega)
      refine ⟨text.take (w - 3) ++ ellipsisChars, by rw [hbs]; rfl, ?_⟩
      rw [utf8Len_append]
      have htake : utf8Len (text.take (w - 3)) = w - 3 := by
        rw [utf8Len_ascii _ (fun c hc => h c (List.take_subset _ _ hc))]
        rw [List.length_take]
        omega
      have he : utf8Len ellipsisChars = 3 := by decide
      rw [htake, he]
      omega

/-- Witness for amended C9 at a concrete ASCII string. -/
theorem truncate_with_ellipsis_ascii_total_witness :
    ∃ s, truncate_with_ellipsis ['a', 'b', 'c', 'd', 'e'] 4 = some s ∧
      utf8Len s ≤ max 4 3 :=
  truncate_with_ellipsis_ascii_total ['a', 'b', 'c', 'd', 'e'] 4 (by decide)

/-! ## Text wrapping (`ui/utils.rs::wrap_text`) -/

/-- Rust `char::is_whitespace`: the Unicode White_Space code points. -/
def isWS (ch : Char) : Bool :=
  decide (ch.toNat = 9) || decide (ch.toNat = 10) || decide (ch.toNat = 11) ||
  decide (ch.toNat = 12) || decide (ch.toNat = 13) || decide (ch.toNat = 32) ||
  decide (ch.toNat = 133) || decide (ch.toNat = 160) || decide (ch.toNat = 5760) ||
  (decide (8192 ≤ ch.toNat) && decide (ch.toNat ≤ 8202)) ||
  decide (ch.toNat = 8232) || decide (ch.toNat = 8233) || decide (ch.toNat = 8239) ||
  decide (ch.toNat = 8287) || decide (ch.toNat = 12288)

/-- Worker of Rust `str::split_whitespace`: scan the characters, `acc`
holding the current word reversed; whitespace closes the word. -/
def splitWSGo : List Char → List Char → List (List Char)
  | [], acc => if acc.isEmpty then [] else [acc.reverse]
  | ch :: rest, acc =>
    if isWS ch then
      if acc.isEmpty then splitWSGo rest [] else acc.reverse :: splitWSGo rest []
    else splitWSGo rest (ch :: acc)

/-- Rust `str::split_whitespace`: maximal runs of non-whitespace. -/
def splitWhitespace (s : List Char) : List (List Char) := splitWSGo s []

/-- Words joined by single spaces (the shape `current_line` has in the
`wrap_text` loop). -/
def joinSp : List (List Char) → List Char
  | [] => []
  | [w] => w
  | w :: v :: ws => w ++ ' ' :: joinSp (v :: ws)

/-- Rust `str::trim`. -/
def trimList (s : List Char) : List Char :=
  ((s.dropWhile isWS).reverse.dropWhile isWS).reverse

/-- The mutable state of the `wrap_text` loop: `lines`, `current_line`
and `current_width`. -/
structure WrapState where
  lines : List (List Char)
  current : List Char
  current_width : Nat
deriving DecidableEq, Repr

/-- One iteration of the `for word in text.split_whitespace()` loop of
`wrap_text` (utils.rs lines 183–198): start a new line when the word no
longer fits, otherwise append it, space-separated unless the line is
empty. -/
def wrapStep (width : Nat) (st : WrapState) (word : List Char) : WrapState :=
  if 0 < st.current_width ∧ width < st.current_width + 1 + word.length then
    ⟨st.lines ++ [trimList st.current], word, word.length⟩
  else if 0 < st.current_width then
    ⟨st.lines, st.current ++ ' ' :: word, st.current_width + 1 + word.length⟩
  else
    ⟨st.lines, st.current ++ word, st.current_width + word.length⟩

/-- The epilogue of `wrap_text` (utils.rs lines 200–208): push the last
line if non-empty, and return a single empty line when nothing was
produced. -/
def wrapFinish (st : WrapState) : List (List Char) :=
  let lines := if st.current.isEmpty then st.lines else st.lines ++ [trimList st.current]
  if lines.isEmpty then [[]] else lines

/-- `wrap_text` (utils.rs lines 174–209). -/
def wrap_text (text : List Char) (width : Nat) : List (List Char) :=
  if width = 0 then [text]
  else wrapFinish ((splitWhitespace text).foldl (wrapStep width) ⟨[], [], 0⟩)

/-- Sanity check: the embedding reproduces the repository's own unit
test `test_wrap_text` (ui_tests.rs lines 169–176). -/
theorem wrap_text_matches_unit_test :
    wrap_text "This is a long text that needs wrapping".toList 10 =
      ["This is a".toList, "long text".toList, "that needs".toList,
        "wrapping".toList] := by
  decide

/-- Sanity check: the empty text yields one empty line. -/
theorem wrap_text_empty : wrap_text "".toList 10 = [[]] := by decide

/-- Sanity check: surrounding and repeated whitespace is collapsed. -/
theorem wrap_text_collapses_whitespace :
    wrap_text "  hi   there  ".toList 5 = ["hi".toList, "there".toList] := by
  decide

/-- All words in a list are nonempty and whitespace-free. -/
def wordsOk (ws : List (List Char)) : Prop :=
  ∀ w ∈ ws, w ≠ [] ∧ ∀ c ∈ w, isWS c = false

theorem splitWSGo_wordsOk (s : List Char) :
    ∀ acc : List Char, (∀ c ∈ acc, isWS c = false) → wordsOk (splitWSGo s acc) := by
  induction s with
  | nil =>
    intro acc hacc
    cases acc with
    | nil => intro w hw; simp [splitWSGo] at hw
    | cons a t =>
      intro w hw
      simp only [splitWSGo, List.isEmpty_cons, Bool.false_eq_true, if_false,
        List.mem_singleton] at hw
      subst hw
      refine ⟨by simp, ?_⟩
      intro c hc
      exact hacc c (List.mem_reverse.mp hc)
  | cons ch rest ih =>
    intro acc hacc
    by_cases hws : isWS ch = true
    · cases acc with
      | nil =>
        simp only [splitWSGo, hws, if_true, List.isEmpty_nil]
        exact ih [] (by intro c hc; simp at hc)
      | cons a t =>
        simp only [splitWSGo, hws, if_true, List.isEmpty_cons, Bool.false_eq_true, if_false]
        intro w hw
        rcases List.mem_cons.mp hw with hw1 | hw1
        · subst hw1
          refine ⟨by simp, ?_⟩
          intro c hc
          exact hacc c (List.mem_reverse.mp hc)
        · exact ih [] (by intro c hc; simp at hc) w hw1
    · have hws' : isWS ch = false := by
        cases h : isWS ch
        · rfl
        · exact absurd h hws
      simp only [splitWSGo, hws', Bool.false_eq_true, if_false]
      apply ih
      intro c hc
      rcases List.mem_cons.mp hc with h1 | h1
      · subst h1; exact hws'
      · exact hacc c h1

theorem splitWSGo_word (w : List Char) :
    ∀ (rest acc : List Char), (∀ c ∈ w, isWS c = false) →
    splitWSGo (w ++ rest) acc = splitWSGo rest (w.reverse ++ acc) := by
  induction w with
  | nil => intro rest acc _; simp
  | cons c w' ih =>
    intro rest acc hw
    have hc : isWS c = false := hw c (List.mem_cons_self _ _)
    simp only [List.cons_append, splitWSGo, hc, Bool.false_eq_true, if_false,
      List.append_eq]
    rw [ih rest (c :: acc) (fun x hx => hw x (List.mem_cons_of_mem _ hx))]
    simp

theorem splitWSGo_space (rest : List Char) (acc : List Char) (hacc : acc ≠ []) :
    splitWSGo (' ' :: rest) acc = acc.reverse :: splitWSGo rest [] := by
  cases acc with
  | nil => exact absurd rfl hacc
  | cons a t =>
    have hsp : isWS ' ' = true := by decide
    simp [splitWSGo, hsp]

theorem splitWhitespace_joinSp (g : List (List Char)) (hg : g ≠ []) (hok : wordsOk g) :
    splitWhitespace (joinSp g) = g := by
  induction g with
  | nil => exact absurd rfl hg
  | cons w gs ih =>
    have hw := hok w (List.mem_cons_self _ _)
    cases gs with
    | nil =>
      have h1 : splitWSGo (w ++ ([] : List Char)) [] = splitWSGo [] (w.reverse ++ []) :=
        splitWSGo_word w [] [] hw.2
      rw [List.append_nil, List.append_nil] at h1
      have hwrev : w.reverse ≠ [] := by
        intro h
        exact hw.1 (List.reverse_eq_nil_iff.mp h)
      unfold splitWhitespace
      show splitWSGo (joinSp [w]) [] = [w]
      have hjw : joinSp [w] = w := rfl
      rw [hjw, h1]
      cases hr : w.reverse with
      | nil => exact absurd hr hwrev
      | cons a t =>
        simp only [splitWSGo, List.isEmpty_cons, Bool.false_eq_true, if_false]
        rw [← hr, List.reverse_reverse]
    | cons v gs' =>
      have hj : joinSp (w :: v :: gs') = w ++ ' ' :: joinSp (v :: gs') := rfl
      unfold splitWhitespace
      rw [hj, splitWSGo_word w (' ' :: joinSp (v :: gs')) [] hw.2, List.append_nil,
        splitWSGo_space _ _ (by
          intro h
          exact hw.1 (List.reverse_eq_nil_iff.mp h)), List.reverse_reverse]
      have := ih (by simp) (fun x hx => hok x (List.mem_cons_of_mem _ hx))
      unfold splitWhitespace at this
      rw [this]

theorem exists_head_joinSp (g : List (List Char)) (hg : g ≠ []) (hok : wordsOk g) :
    ∃ c t, joinSp g = c :: t ∧ isWS c = false := by
  cases g with
  | nil => exact absurd rfl hg
  | cons w gs =>
    have hw := hok w (List.mem_cons_self _ _)
    cases w with
    | nil => exact absurd rfl hw.1
    | cons c w' =>
      have hc : isWS c = false := hw.2 c (List.mem_cons_self _ _)
      cases gs with
      | nil => exact ⟨c, w', rfl, hc⟩
      | cons v gs' => exact ⟨c, w' ++ ' ' :: joinSp (v :: gs'), rfl, hc⟩

theorem exists_last_joinSp (g : List (List Char)) (hg : g ≠ []) (hok : wordsOk g) :
    ∃ c t, (joinSp g).reverse = c :: t ∧ isWS c = false := by
  induction g with
  | nil => exact absurd rfl hg
  | cons w gs ih =>
    have hw := hok w (List.mem_cons_self _ _)
    cases gs with
    | nil =>
      rw [show joinSp [w] = w from rfl]
      cases hr : w.reverse with
      | nil => exact absurd (List.reverse_eq_nil_iff.mp hr) hw.1
      | cons c t =>
        refine ⟨c, t, rfl, ?_⟩
        have : c ∈ w := by
          rw [← List.mem_reverse, hr]
          exact List.mem_cons_self _ _
        exact hw.2 c this
    | cons v gs' =>
      obtain ⟨c, t, hct, hc⟩ := ih (by simp) (fun x hx => hok x (List.mem_cons_of_mem _ hx))
      refine ⟨c, t ++ ' ' :: w.reverse, ?_, hc⟩
      rw [show joinSp (w :: v :: gs') = w ++ ' ' :: joinSp (v :: gs') from rfl]
      rw [List.reverse_append, List.reverse_cons, hct]
      simp

theorem trimList_joinSp (g : List (List Char)) (hg : g ≠ []) (hok : wordsOk g) :
    trimList (joinSp g) = joinSp g := by
  obtain ⟨c, t, h1, hc⟩ := exists_head_joinSp g hg hok
  obtain ⟨c2, t2, h2, hc2⟩ := exists_last_joinSp g hg hok
  unfold trimList
  rw [h1] at h2 ⊢
  rw [List.dropWhile_cons, hc]
  simp only [Bool.false_eq_true, if_false]
  rw [h2, List.dropWhile_cons, hc2]
  simp only [Bool.false_eq_true, if_false]
  rw [← h2, List.reverse_reverse]

theorem joinSp_append_single (g : List (List Char)) (w : List Char) (hg : g ≠ []) :
    joinSp (g ++ [w]) = joinSp g ++ ' ' :: w := by
  induction g with
  | nil => exact absurd rfl hg
  | cons v gs ih =>
    cases gs with
    | nil => rfl
    | cons u gs' =>
      have h1 : joinSp (v :: u :: (gs' ++ [w])) =
          v ++ ' ' :: joinSp ((u :: gs') ++ [w]) := rfl
      rw [show (v :: u :: gs') ++ [w] = v :: u :: (gs' ++ [w]) from rfl, h1,
        ih (by simp)]
      rw [show joinSp (v :: u :: gs') = v ++ ' ' :: joinSp (u :: gs') from rfl]
      simp

theorem joinSp_eq_nil_iff (cur : List (List Char)) (hok : wordsOk cur) :
    joinSp cur = [] ↔ cur = [] := by
  constructor
  · intro h
    cases cur with
    | nil => rfl
    | cons w gs =>
      exfalso
      have hw := hok w (List.mem_cons_self _ _)
      cases gs with
      | nil => exact hw.1 (by rw [← show joinSp [w] = w from rfl, h])
      | cons v gs' =>
        rw [show joinSp (w :: v :: gs') = w ++ ' ' :: joinSp (v :: gs') from rfl] at h
        rcases List.append_eq_nil.mp h with ⟨_, h2⟩
        exact List.cons_ne_nil _ _ h2
  · intro h; rw [h]; rfl

/-- The loop state corresponding to already-emitted word groups `gs` and
the words `cur` of the current line. -/
def stateOf (gs : List (List (List Char))) (cur : List (List Char)) : WrapState :=
  ⟨gs.map joinSp, joinSp cur, (joinSp cur).length⟩

/-- Every emitted group is a nonempty, whitespace-free word list whose
joined line fits in `width`. -/
def GoodGroups (width : Nat) (gs : List (List (List Char))) : Prop :=
  ∀ g ∈ gs, g ≠ [] ∧ wordsOk g ∧ (joinSp g).length ≤ width

/-- The current line's words are whitespace-free and the line fits. -/
def GoodCur (width : Nat) (cur : List (List Char)) : Prop :=
  wordsOk cur ∧ (joinSp cur).length ≤ width

theorem wrap_fold_inv (width : Nat) (words : List (List Char)) :
    ∀ (gs : List (List (List Char))) (cur : List (List Char)),
    wordsOk words → (∀ w ∈ words, w.length ≤ width) →
    GoodGroups width gs → GoodCur width cur →
    ∃ gs' cur',
      List.foldl (wrapStep width) (stateOf gs cur) words = stateOf gs' cur' ∧
      GoodGroups width gs' ∧ GoodCur width cur' ∧
      gs'.flatten ++ cur' = gs.flatten ++ cur ++ words := by
  induction words with
  | nil =>
    intro gs cur _ _ hgg hgc
    exact ⟨gs, cur, rfl, hgg, hgc, by simp⟩
  | cons w rest ih =>
    intro gs cur hok hlen hgg hgc
    have hwok := hok w (List.mem_cons_self _ _)
    have hwlen := hlen w (List.mem_cons_self _ _)
    have hok' : wordsOk rest := fun x hx => hok x (List.mem_cons_of_mem _ hx)
    have hlen' : ∀ x ∈ rest, x.length ≤ width :=
      fun x hx => hlen x (List.mem_cons_of_mem _ hx)
    rw [List.foldl_cons]
    by_cases hA : 0 < (joinSp cur).length ∧ width < (joinSp cur).length + 1 + w.length
    · have hcur_ne : cur ≠ [] := by
        intro h
        rw [h] at hA
        simp [joinSp] at hA
      have hstep : wrapStep width (stateOf gs cur) w = stateOf (gs ++ [cur]) [w] := by
        simp only [wrapStep, stateOf]
        rw [if_pos hA, trimList_joinSp cur hcur_ne hgc.1, WrapState.mk.injEq]
        refine ⟨by simp [List.map_append], rfl, rfl⟩
      rw [hstep]
      obtain ⟨gs', cur', hfold, hgg', hgc', hjoin⟩ := ih (gs ++ [cur]) [w] hok' hlen'
        (by
          intro g hg
          rcases List.mem_append.mp hg with h1 | h1
          · exact hgg g h1
          · rw [List.mem_singleton] at h1
            subst h1
            exact ⟨hcur_ne, hgc.1, hgc.2⟩)
        ⟨by
          intro x hx
          rw [List.mem_singleton] at hx
          subst hx
          exact hwok, by
          rw [show joinSp [w] = w from rfl]
          exact hwlen⟩
      refine ⟨gs', cur', hfold, hgg', hgc', ?_⟩
      rw [hjoin]
      simp [List.flatten_append]
    · by_cases hB : 0 < (joinSp cur).length
      · have hcur_ne : cur ≠ [] := by
          intro h
          rw [h] at hB
          simp [joinSp] at hB
        have hfit : (joinSp cur).length + 1 + w.length ≤ width := by
          rcases Nat.lt_or_ge width ((joinSp cur).length + 1 + w.length) with h | h
          · exact absurd ⟨hB, h⟩ hA
          · exact h
        have hjapp : joinSp (cur ++ [w]) = joinSp cur ++ ' ' :: w :=
          joinSp_append_single cur w hcur_ne
        have hstep : wrapStep width (stateOf gs cur) w = stateOf gs (cur ++ [w]) := by
          simp only [wrapStep, stateOf]
          rw [if_neg hA, if_pos hB, hjapp, WrapState.mk.injEq]
          refine ⟨rfl, rfl, ?_⟩
          simp only [List.length_append, List.length_cons]
          omega
        rw [hstep]
        obtain ⟨gs', cur', hfold, hgg', hgc', hjoin⟩ := ih gs (cur ++ [w]) hok' hlen' hgg
          ⟨by
            intro x hx
            rcases List.mem_append.mp hx with h1 | h1
            · exact hgc.1 x h1
            · rw [List.mem_singleton] at h1
              subst h1
              exact hwok, by
            rw [hjapp]
            simp [List.length_append]
            omega⟩
        refine ⟨gs', cur', hfold, hgg', hgc', ?_⟩
        rw [hjoin]
        simp
      · have hcur0 : joinSp cur = [] :=
          List.length_eq_zero.mp (Nat.eq_zero_of_not_pos hB)
        have hcur : cur = [] := (joinSp_eq_nil_iff cur hgc.1).mp hcur0
        subst hcur
        have hstep : wrapStep width (stateOf gs []) w = stateOf gs [w] := by
          simp only [wrapStep, stateOf]
          rw [if_neg hA, if_neg (by simp [joinSp]), WrapState.mk.injEq]
          refine ⟨rfl, by simp [joinSp], by simp [joinSp]⟩
        rw [hstep]
        obtain ⟨gs', cur', hfold, hgg', hgc', hjoin⟩ := ih gs [w] hok' hlen' hgg
          ⟨by
            intro x hx
            rw [List.mem_singleton] at hx
            subst hx
            exact hwok, by
            rw [show joinSp [w] = w from rfl]
            exact hwlen⟩
        refine ⟨gs', cur', hfold, hgg', hgc', ?_⟩
        rw [hjoin]
        simp

/-- C10: for a positive width and a text whose whitespace-separated
words each fit in `width` characters, `wrap_text` returns a non-empty
list of lines, every line has at most `width` characters, and the words
of the lines, in order, are exactly the words of the input text. -/
theorem wrap_text_spec (text : List Char) (width : Nat) (hwidth : 0 < width)
    (hwords : ∀ w ∈ splitWhitespace text, w.length ≤ width) :
    wrap_text text width ≠ [] ∧
    (∀ line ∈ wrap_text text width, line.length ≤ width) ∧
    ((wrap_text text width).map splitWhitespace).flatten = splitWhitespace text := by
  have hok : wordsOk (splitWhitespace text) :=
    splitWSGo_wordsOk text [] (fun c hc => absurd hc (List.not_mem_nil c))
  obtain ⟨gs', cur', hfold, hgg, hgc, hjoin⟩ :=
    wrap_fold_inv width (splitWhitespace text) [] [] hok hwords
      (fun g hg => absurd hg (List.not_mem_nil g))
      ⟨fun x hx => absurd hx (List.not_mem_nil x), by simp [joinSp]⟩
  have hjoin' : gs'.flatten ++ cur' = splitWhitespace text := by
    simpa using hjoin
  have hwt : wrap_text text width = wrapFinish (stateOf gs' cur') := by
    unfold wrap_text
    rw [if_neg (by omega : ¬ width = 0),
      show (⟨[], [], 0⟩ : WrapState) = stateOf [] [] from rfl, hfold]
  have hfinal : ∀ G : List (List (List Char)), G ≠ [] → GoodGroups width G →
      G.flatten = splitWhitespace text →
      G.map joinSp ≠ [] ∧ (∀ line ∈ G.map joinSp, line.length ≤ width) ∧
      ((G.map joinSp).map splitWhitespace).flatten = splitWhitespace text := by
    intro G hGne hGG hGflat
    refine ⟨by simpa using hGne, ?_, ?_⟩
    · intro line hl
      obtain ⟨g, hg, hlg⟩ := List.mem_map.mp hl
      rw [← hlg]
      exact (hGG g hg).2.2
    · rw [List.map_map]
      have hmap : G.map (splitWhitespace ∘ joinSp) = G := by
        conv_rhs => rw [← List.map_id G]
        apply List.map_congr_left
        intro g hg
        show splitWhitespace (joinSp g) = id g
        rw [splitWhitespace_joinSp g (hGG g hg).1 (hGG g hg).2.1]
        rfl
      rw [hmap, hGflat]
  rw [hwt]
  simp only [wrapFinish, stateOf]
  by_cases hc : cur' = []
  · subst hc
    rw [show joinSp ([] : List (List Char)) = [] from rfl]
    simp only [List.isEmpty_nil, if_true]
    by_cases hgs : gs' = []
    · subst hgs
      have htext : splitWhitespace text = [] := by simpa using hjoin'
      simp only [List.map_nil, List.isEmpty_nil, if_true]
      refine ⟨by simp, ?_, ?_⟩
      · intro line hl
        rw [List.mem_singleton] at hl
        subst hl
        simp
      · rw [htext]
        rfl
    · have hne : gs'.map joinSp ≠ [] := fun h => hgs (List.map_eq_nil_iff.mp h)
      rw [List.isEmpty_eq_false.mpr hne]
      simp only [Bool.false_eq_true, if_false]
      exact hfinal gs' hgs hgg (by simpa using hjoin')
  · have hcurne : joinSp cur' ≠ [] := fun h => hc ((joinSp_eq_nil_iff cur' hgc.1).mp h)
    rw [List.isEmpty_eq_false.mpr hcurne]
    simp only [Bool.false_eq_true, if_false]
    rw [trimList_joinSp cur' hc hgc.1]
    have hmapG : gs'.map joinSp ++ [joinSp cur'] = (gs' ++ [cur']).map joinSp := by
      simp [List.map_append]
    rw [hmapG]
    have hGne : gs' ++ [cur'] ≠ [] := by simp
    have hGG2 : GoodGroups width (gs' ++ [cur']) := by
      intro g hg
      rcases List.mem_append.mp hg with h1 | h1
      · exact hgg g h1
      · rw [List.mem_singleton] at h1
        subst h1
        exact ⟨hc, hgc.1, hgc.2⟩
    have hGflat : (gs' ++ [cur']).flatten = splitWhitespace text := by
      rw [List.flatten_append]
      simpa using hjoin'
    have hlinesne : (gs' ++ [cur']).map joinSp ≠ [] := by simp
    rw [List.isEmpty_eq_false.mpr hlinesne]
    simp only [Bool.false_eq_true, if_false]
    exact hfinal (gs' ++ [cur']) hGne hGG2 hGflat

/-- Witness for C10 at the concrete text of the repository's own unit
test, wrapped at width 10. -/
theorem wrap_text_spec_witness :
    wrap_text "This is a long text that needs wrapping".toList 10 ≠ [] ∧
    (∀ line ∈ wrap_text "This is a long text that needs wrapping".toList 10,
      line.length ≤ 10) ∧
    ((wrap_text "This is a long text that needs wrapping".toList 10).map
        splitWhitespace).flatten =
      splitWhitespace "This is a long text that needs wrapping".toList :=
  wrap_text_spec "This is a long text that needs wrapping".toList 10 (by decide) (by decide)

/-! ## Directory listing (`PromptResolver::get_prompt_directories`,
delegating to the VFS `get_directories`; spec §4.1) -/

/-- A filesystem path: whether it is absolute, and its segments. -/
structure DirPath where
  absolute : Bool
  segs : List String
deriving DecidableEq, Repr

/-- Keep the first occurrence of each path, dropping later duplicates;
`seen` accumulates the paths already emitted. -/
def dedupGo : List DirPath → List DirPath → List DirPath
  | _, [] => []
  | seen, p :: rest =>
    if p ∈ seen then dedupGo seen rest else p :: dedupGo (p :: seen) rest

/-- Modelled from the spec: `get_directories()` returns the distinct
root paths that exist at call time, in registration order; `fs` tells
which paths currently exist as directories (`file_loader.rs` is not
available). -/
def get_directories (fs : DirPath → Bool) (roots : List DirPath) : List DirPath :=
  dedupGo [] (roots.filter fs)

theorem dedupGo_sublist (l : List DirPath) :
    ∀ seen, (dedupGo seen l).Sublist l := by
  induction l with
  | nil => intro seen; simp [dedupGo]
  | cons p rest ih =>
    intro seen
    by_cases hp : p ∈ seen
    · simp only [dedupGo, hp, if_true]
      exact (ih seen).cons p
    · simp only [dedupGo, hp, if_false]
      exact (ih (p :: seen)).cons₂ p

theorem dedupGo_not_mem_seen (l : List DirPath) :
    ∀ seen, ∀ x ∈ dedupGo seen l, x ∉ seen := by
  induction l with
  | nil => intro seen x hx; simp [dedupGo] at hx
  | cons p rest ih =>
    intro seen x hx
    by_cases hp : p ∈ seen
    · simp only [dedupGo, hp, if_true] at hx
      exact ih seen x hx
    · simp only [dedupGo, hp, if_false] at hx
      rcases List.mem_cons.mp hx with h1 | h1
      · subst h1; exact hp
      · intro hxs
        exact ih (p :: seen) x h1 (List.mem_cons_of_mem _ hxs)

theorem dedupGo_nodup (l : List DirPath) :
    ∀ seen, (dedupGo seen l).Nodup := by
  induction l with
  | nil => intro seen; simp [dedupGo]
  | cons p rest ih =>
    intro seen
    by_cases hp : p ∈ seen
    · simp only [dedupGo, hp, if_true]
      exact ih seen
    · simp only [dedupGo, hp, if_false, List.nodup_cons]
      refine ⟨fun hmem => ?_, ih (p :: seen)⟩
      exact dedupGo_not_mem_seen rest (p :: seen) p hmem (List.mem_cons_self _ _)

/-- C6: every path returned by `get_directories` is absolute (given that
only absolute roots are registered, as the resolver does) and exists at
call time; the returned paths are distinct; and they form a subsequence
of the registered roots, i.e. they appear in registration order. -/
theorem get_directories_spec (fs : DirPath → Bool) (roots : List DirPath)
    (habs : ∀ p ∈ roots, p.absolute = true) :
    (∀ p ∈ get_directories fs roots, p.absolute = true ∧ fs p = true) ∧
    (get_directories fs roots).Nodup ∧
    (get_directories fs roots).Sublist roots := by
  have hsub : (get_directories fs roots).Sublist (roots.filter fs) :=
    dedupGo_sublist (roots.filter fs) []
  refine ⟨?_, dedupGo_nodup (roots.filter fs) [], hsub.trans (List.filter_sublist roots)⟩
  intro p hp
  have hpf : p ∈ roots.filter fs := hsub.mem hp
  have := List.mem_filter.mp hpf
  exact ⟨habs p this.1, this.2⟩

/-- Registered roots of the witness: home dir, a nonexisting dir, and a
project dir registered twice. -/
def demoRoots : List DirPath :=
  [⟨true, ["home", "sah"]⟩, ⟨true, ["gone"]⟩, ⟨true, ["proj", "sah"]⟩,
    ⟨true, ["proj", "sah"]⟩]

/-- Existence test of the witness filesystem. -/
def demoFs : DirPath → Bool :=
  fun p => decide (p.segs = ["home", "sah"]) || decide (p.segs = ["proj", "sah"])

/-- Witness for C6 on the concrete root registration. -/
theorem get_directories_spec_witness :
    (∀ p ∈ get_directories demoFs demoRoots, p.absolute = true ∧ demoFs p = true) ∧
    (get_directories demoFs demoRoots).Nodup ∧
    (get_directories demoFs demoRoots).Sublist demoRoots :=
  get_directories_spec demoFs demoRoots (by decide)
